import Mathlib

/-!
Shallow embedding of `src/handler.py` (duplicate-file finder).

Python dicts (insertion-ordered, unique keys) are modelled as association
lists; fallible filesystem calls (`os.stat`, `open`/`read`, `os.remove`),
which the source leaves unguarded so that an exception aborts the whole
call, are modelled as `Option`-valued functions, with `none` propagating
to the caller exactly where a Python exception would propagate.
-/

/-- Result dictionary of `check_hashes`: digest → list of paths, in
insertion order. -/
abbrev HDict := List (String × List String)

/-- Size dictionary of `get_files`: size → list of paths, in insertion
order. -/
abbrev SDict := List (Nat × List String)

/-- One `(root, name)` pair yielded by the `os.walk` loop of `get_files`,
in traversal order. -/
structure Entry where
  root : String
  name : String
deriving DecidableEq

/-- `os.path.join(root, name)`. -/
def os_path_join (root name : String) : String := root ++ "/" ++ name

/-- Python's `str.endswith`: the filter `i.endswith(form)` of `get_files`
(line 32), on the character sequences of the two strings. -/
def str_endswith (s form : String) : Bool := form.data.isSuffixOf s.data

/-- The dict update in the body of the `for file in files` loop of
`check_hashes` (lines 98-101): a fresh digest is inserted at the end with a
singleton list, an existing digest gets the path appended. -/
def insertFile : HDict → String → String → HDict
  | [], h, p => [(h, [p])]
  | (k, ps) :: rest, h, p =>
    if k = h then (k, ps ++ [p]) :: rest else (k, ps) :: insertFile rest h p

/-- The `for file in files` loop of `check_hashes` (lines 94-101):
`readF` models `open(file, "rb").read()` (`none` = raised `OSError`),
`dg` models `hashlib.md5(...).hexdigest()`. -/
def buildHashes (readF : String → Option (List Nat)) (dg : List Nat → String) :
    List String → HDict → Option HDict
  | [], acc => some acc
  | f :: fs, acc =>
    match readF f with
    | none => none
    | some c => buildHashes readF dg fs (insertFile acc (dg c) f)

/-- `check_hashes` (lines 86-105): hash every file of the bucket, then
delete every digest group of length < 2. -/
def check_hashes (readF : String → Option (List Nat)) (dg : List Nat → String)
    (files : List String) : Option HDict :=
  match buildHashes readF dg files [] with
  | none => none
  | some d => some (d.filter (fun kv => 2 ≤ kv.2.length))

/-- The `defaultdict` append `lst[size].append(path)` of `get_files`
(line 35). -/
def insertSize : SDict → Nat → String → SDict
  | [], s, p => [(s, [p])]
  | (k, ps) :: rest, s, p =>
    if k = s then (k, ps ++ [p]) :: rest else (k, ps) :: insertSize rest s p

/-- The `os.walk` double loop of `get_files` (lines 30-35): `stat` models
`os.stat(path).st_size` (`none` = raised `OSError`). -/
def buildSizes (stat : String → Option Nat) (form : String) :
    List Entry → SDict → Option SDict
  | [], acc => some acc
  | e :: es, acc =>
    if str_endswith e.name form then
      match stat (os_path_join e.root e.name) with
      | none => none
      | some size =>
          buildSizes stat form es (insertSize acc size (os_path_join e.root e.name))
    else buildSizes stat form es acc

/-- `get_files` (lines 20-39): group the walked entries by size, then
delete every size bucket of length < 2. -/
def get_files (stat : String → Option Nat) (entries : List Entry)
    (form : String) : Option SDict :=
  match buildSizes stat form entries [] with
  | none => none
  | some d => some (d.filter (fun kv => 2 ≤ kv.2.length))

/-- `lst[size]` lookup used by `get_duplicates` (line 119). -/
def dict_get : SDict → Nat → List String
  | [], _ => []
  | (k, v) :: rest, s => if k = s then v else dict_get rest s

/-- `sorted(lst.keys(), reverse=srt)` (line 117): `srt = true` sorts the
(distinct) sizes descending, `srt = false` ascending. -/
def sorted_keys (keys : List Nat) (srt : Bool) : List Nat :=
  if srt then List.insertionSort (· ≥ ·) keys
  else List.insertionSort (· ≤ ·) keys

/-- The `for size in srt_sizes` loop of `get_duplicates` (lines 118-121):
a size entry is added iff its `check_hashes` dict is non-empty. -/
def buildDuplicates (readF : String → Option (List Nat))
    (dg : List Nat → String) (lst : SDict) :
    List Nat → Option (List (Nat × HDict))
  | [] => some []
  | s :: rest =>
    match check_hashes readF dg (dict_get lst s) with
    | none => none
    | some hd =>
      match buildDuplicates readF dg lst rest with
      | none => none
      | some acc => some (if hd.isEmpty then acc else (s, hd) :: acc)

/-- `get_duplicates` (lines 108-122). -/
def get_duplicates (lst : SDict) (srt : Bool)
    (readF : String → Option (List Nat)) (dg : List Nat → String) :
    Option (List (Nat × HDict)) :=
  buildDuplicates readF dg lst (sorted_keys (lst.map Prod.fst) srt)

/-- Innermost loop of `get_duplicates_paths` (lines 155-157): number the
paths of one digest group starting at `count`, returning the new counter. -/
def number_group (size count : Nat) : List String → List (Nat × String × Nat) × Nat
  | [] => ([], count)
  | p :: ps =>
    let r := number_group size (count + 1) ps
    ((count, p, size) :: r.1, r.2)

/-- Middle loop of `get_duplicates_paths` (line 154): number the digest
groups of one size entry. -/
def number_groups (size : Nat) : Nat → HDict → List (Nat × String × Nat) × Nat
  | count, [] => ([], count)
  | count, g :: gs =>
    let r := number_group size count g.2
    let r2 := number_groups size r.2 gs
    (r.1 ++ r2.1, r2.2)

/-- Outer loop of `get_duplicates_paths` (line 153). -/
def number_sizes : Nat → List (Nat × HDict) → List (Nat × String × Nat) × Nat
  | count, [] => ([], count)
  | count, e :: es =>
    let r := number_groups e.1 count e.2
    let r2 := number_sizes r.2 es
    (r.1 ++ r2.1, r2.2)

/-- `get_duplicates_paths` (lines 144-158): the AddressTable
`index → (path, size)` with indices 0, 1, 2, ... -/
def get_duplicates_paths (duplicates : List (Nat × HDict)) :
    List (Nat × String × Nat) :=
  (number_sizes 0 duplicates).1

/-- The canonical traversal sequence in the words of the spec (§4.4): size
entries in the order of the DuplicateSet, digest groups within a size in
insertion order, paths within a digest group in discovery order, each path
paired with its size. -/
def specTraversalOrder (d : List (Nat × HDict)) : List (String × Nat) :=
  d.flatMap (fun e => e.2.flatMap (fun g => g.2.map (fun p => (p, e.1))))

/-- The `for numb in paths` loop of `delete_files` (lines 190-193).  The
filesystem is the list `fs` of existing files; `os.remove` deletes the file
if present and raises (`none`) otherwise. -/
def delete_files_go (numbers : List Nat) :
    List String → Nat → List (Nat × String × Nat) → Option (List String × Nat)
  | fs, mem, [] => some (fs, mem)
  | fs, mem, (numb, p, sz) :: rest =>
    if numb ∈ numbers then
      if p ∈ fs then delete_files_go numbers (fs.erase p) (mem + sz) rest
      else none
    else delete_files_go numbers fs mem rest

/-- `delete_files` (lines 181-194): returns the final filesystem and the
reported total of freed bytes, or `none` if some `os.remove` raised. -/
def delete_files (fs : List String) (paths : List (Nat × String × Nat))
    (numbers : List Nat) : Option (List String × Nat) :=
  delete_files_go numbers fs 0 paths

/-- All paths stored in a hash dictionary, in group order. -/
def allPaths (d : HDict) : List String := d.flatMap (fun g => g.2)

theorem insertFile_mem_cases {d : HDict} {h p : String} {g : String × List String}
    (hg : g ∈ insertFile d h p) :
    g ∈ d ∨ ∃ ps, g = (h, ps ++ [p]) ∧ (ps = [] ∨ (h, ps) ∈ d) := by
  induction d with
  | nil =>
    simp only [insertFile, List.mem_singleton] at hg
    exact Or.inr ⟨[], by simp [hg], Or.inl rfl⟩
  | cons hd tl ih =>
    obtain ⟨k, ps⟩ := hd
    simp only [insertFile] at hg
    by_cases hk : k = h
    · rw [if_pos hk] at hg
      rcases List.mem_cons.mp hg with h1 | h1
      · subst hk
        exact Or.inr ⟨ps, h1, Or.inr (List.mem_cons_self _ _)⟩
      · exact Or.inl (List.mem_cons_of_mem _ h1)
    · rw [if_neg hk] at hg
      rcases List.mem_cons.mp hg with h1 | h1
      · exact Or.inl (h1 ▸ List.mem_cons_self _ _)
      · rcases ih h1 with h2 | ⟨ps', h2, h3⟩
        · exact Or.inl (List.mem_cons_of_mem _ h2)
        · exact Or.inr ⟨ps', h2, h3.imp id (List.mem_cons_of_mem _)⟩

theorem insertFile_self (d : HDict) (h p : String) :
    ∃ g ∈ insertFile d h p, g.1 = h ∧ p ∈ g.2 := by
  induction d with
  | nil => exact ⟨(h, [p]), by simp [insertFile]⟩
  | cons hd tl ih =>
    obtain ⟨k, ps⟩ := hd
    by_cases hk : k = h
    · exact ⟨(k, ps ++ [p]), by simp [insertFile, hk]⟩
    · obtain ⟨g, hg1, hg2⟩ := ih
      exact ⟨g, by simp [insertFile, hk, hg1], hg2⟩

theorem insertFile_preserve {d : HDict} {g : String × List String} (hg : g ∈ d)
    {q : String} (hq : q ∈ g.2) (h p : String) :
    ∃ g' ∈ insertFile d h p, g'.1 = g.1 ∧ q ∈ g'.2 := by
  induction d with
  | nil => simp at hg
  | cons hd tl ih =>
    obtain ⟨k, ps⟩ := hd
    by_cases hk : k = h
    · simp only [insertFile, if_pos hk]
      rcases List.mem_cons.mp hg with h1 | h1
      · refine ⟨(k, ps ++ [p]), List.mem_cons_self _ _, ?_, ?_⟩
        · rw [h1]
        · rw [h1] at hq
          exact List.mem_append_left _ hq
      · exact ⟨g, List.mem_cons_of_mem _ h1, rfl, hq⟩
    · simp only [insertFile, if_neg hk]
      rcases List.mem_cons.mp hg with h1 | h1
      · exact ⟨g, h1 ▸ List.mem_cons_self _ _, rfl, hq⟩
      · obtain ⟨g', hg1, hg2, hg3⟩ := ih h1
        exact ⟨g', List.mem_cons_of_mem _ hg1, hg2, hg3⟩

theorem insertFile_keys (d : HDict) (h p : String) :
    (insertFile d h p).map Prod.fst =
      if h ∈ d.map Prod.fst then d.map Prod.fst else d.map Prod.fst ++ [h] := by
  induction d with
  | nil => simp [insertFile]
  | cons hd tl ih =>
    obtain ⟨k, ps⟩ := hd
    by_cases hk : k = h
    · simp [insertFile, hk]
    · simp only [insertFile, if_neg hk, List.map_cons]
      rw [ih]
      by_cases hmem : h ∈ tl.map Prod.fst
      · simp [hmem, hk, Ne.symm hk]
      · simp [hmem, hk, Ne.symm hk]

theorem count_allPaths_insertFile (d : HDict) (h p q : String) :
    (allPaths (insertFile d h p)).count q =
      (allPaths d).count q + if q = p then 1 else 0 := by
  induction d with
  | nil =>
    by_cases hq : q = p
    all_goals simp [insertFile, allPaths, hq]
  | cons hd tl ih =>
    obtain ⟨k, ps⟩ := hd
    by_cases hk : k = h
    · simp only [insertFile, if_pos hk, allPaths, List.flatMap_cons, List.count_append]
      by_cases hq : q = p <;> simp [hq, List.count_singleton] <;> omega
    · simp only [insertFile, if_neg hk, allPaths, List.flatMap_cons, List.count_append]
      simp only [allPaths] at ih
      omega

theorem insertFile_sublist {d : HDict} {done : List String}
    (hd : ∀ g ∈ d, g.2.Sublist done) (h p : String) :
    ∀ g ∈ insertFile d h p, g.2.Sublist (done ++ [p]) := by
  intro g hg
  rcases insertFile_mem_cases hg with h1 | ⟨ps, h1, h2⟩
  · exact (hd g h1).trans (List.sublist_append_left done [p])
  · rcases h2 with h2 | h2
    · subst h2
      rw [h1]
      exact List.Sublist.append (List.nil_sublist done) (List.Sublist.refl [p])
    · rw [h1]
      exact List.Sublist.append (hd (h, ps) h2) (List.Sublist.refl [p])

theorem buildHashes_inv (readF : String → Option (List Nat))
    (dg : List Nat → String) :
    ∀ (files : List String) (acc d : HDict),
    buildHashes readF dg files acc = some d →
    (∀ g ∈ acc, ∀ p ∈ g.2, ∃ c, readF p = some c ∧ dg c = g.1) →
    ∀ g ∈ d, ∀ p ∈ g.2, ∃ c, readF p = some c ∧ dg c = g.1 := by
  intro files
  induction files with
  | nil =>
    intro acc d hb hinv
    simp only [buildHashes, Option.some.injEq] at hb
    exact hb ▸ hinv
  | cons f fs ih =>
    intro acc d hb hinv
    simp only [buildHashes] at hb
    cases hr : readF f with
    | none => rw [hr] at hb; exact absurd hb (by simp)
    | some c =>
      rw [hr] at hb
      refine ih _ _ hb ?_
      intro g hg p hp
      rcases insertFile_mem_cases hg with h1 | ⟨ps, h1, h2⟩
      · exact hinv g h1 p hp
      · rw [h1] at hp ⊢
        rcases List.mem_append.mp hp with hp1 | hp1
        · rcases h2 with h2 | h2
          · subst h2; simp at hp1
          · exact hinv (dg c, ps) h2 p hp1
        · rw [List.mem_singleton.mp hp1]
          exact ⟨c, hr, rfl⟩

theorem buildHashes_keys_nodup (readF : String → Option (List Nat))
    (dg : List Nat → String) :
    ∀ (files : List String) (acc d : HDict),
    buildHashes readF dg files acc = some d →
    (acc.map Prod.fst).Nodup → (d.map Prod.fst).Nodup := by
  intro files
  induction files with
  | nil =>
    intro acc d hb hnd
    simp only [buildHashes, Option.some.injEq] at hb
    exact hb ▸ hnd
  | cons f fs ih =>
    intro acc d hb hnd
    simp only [buildHashes] at hb
    cases hr : readF f with
    | none => rw [hr] at hb; exact absurd hb (by simp)
    | some c =>
      rw [hr] at hb
      refine ih _ _ hb ?_
      rw [insertFile_keys]
      by_cases hmem : dg c ∈ acc.map Prod.fst
      · simpa [hmem] using hnd
      · rw [if_neg hmem, List.nodup_append]
        exact ⟨hnd, List.nodup_singleton _, by simpa using hmem⟩

theorem buildHashes_preserve (readF : String → Option (List Nat))
    (dg : List Nat → String) :
    ∀ (files : List String) (acc d : HDict),
    buildHashes readF dg files acc = some d →
    ∀ g ∈ acc, ∀ q ∈ g.2, ∃ g' ∈ d, g'.1 = g.1 ∧ q ∈ g'.2 := by
  intro files
  induction files with
  | nil =>
    intro acc d hb g hg q hq
    simp only [buildHashes, Option.some.injEq] at hb
    exact ⟨g, hb ▸ hg, rfl, hq⟩
  | cons f fs ih =>
    intro acc d hb g hg q hq
    simp only [buildHashes] at hb
    cases hr : readF f with
    | none => rw [hr] at hb; exact absurd hb (by simp)
    | some c =>
      rw [hr] at hb
      obtain ⟨g', hg1, hg2, hg3⟩ := insertFile_preserve hg hq (dg c) f
      obtain ⟨g2, hg4, hg5, hg6⟩ := ih _ _ hb g' hg1 q hg3
      exact ⟨g2, hg4, hg5.trans hg2, hg6⟩

theorem buildHashes_mem (readF : String → Option (List Nat))
    (dg : List Nat → String) :
    ∀ (files : List String) (acc d : HDict),
    buildHashes readF dg files acc = some d →
    ∀ f ∈ files, ∃ c, readF f = some c ∧ ∃ g ∈ d, g.1 = dg c ∧ f ∈ g.2 := by
  intro files
  induction files with
  | nil => intro acc d _ f hf; simp at hf
  | cons f0 fs ih =>
    intro acc d hb f hf
    simp only [buildHashes] at hb
    cases hr : readF f0 with
    | none => rw [hr] at hb; exact absurd hb (by simp)
    | some c =>
      rw [hr] at hb
      rcases List.mem_cons.mp hf with rfl | hf1
      · refine ⟨c, hr, ?_⟩
        obtain ⟨g, hg1, hg2, hg3⟩ := insertFile_self acc (dg c) f
        obtain ⟨g', hg4, hg5, hg6⟩ := buildHashes_preserve readF dg fs _ _ hb g hg1 f hg3
        exact ⟨g', hg4, hg5.trans hg2, hg6⟩
      · exact ih _ _ hb f hf1

theorem buildHashes_count (readF : String → Option (List Nat))
    (dg : List Nat → String) :
    ∀ (files : List String) (acc d : HDict),
    buildHashes readF dg files acc = some d →
    ∀ q, (allPaths d).count q = (allPaths acc).count q + files.count q := by
  intro files
  induction files with
  | nil =>
    intro acc d hb q
    simp only [buildHashes, Option.some.injEq] at hb
    simp [hb]
  | cons f fs ih =>
    intro acc d hb q
    simp only [buildHashes] at hb
    cases hr : readF f with
    | none => rw [hr] at hb; exact absurd hb (by simp)
    | some c =>
      rw [hr] at hb
      have h1 := ih _ _ hb q
      rw [count_allPaths_insertFile] at h1
      rw [h1, List.count_cons]
      by_cases hq : q = f
      · simp [hq]; omega
      · simp [hq, Ne.symm hq]

theorem buildHashes_sublist (readF : String → Option (List Nat))
    (dg : List Nat → String) :
    ∀ (files done : List String) (acc d : HDict),
    buildHashes readF dg files acc = some d →
    (∀ g ∈ acc, g.2.Sublist done) →
    ∀ g ∈ d, g.2.Sublist (done ++ files) := by
  intro files
  induction files with
  | nil =>
    intro done acc d hb hacc
    simp only [buildHashes, Option.some.injEq] at hb
    simpa [hb] using hacc
  | cons f fs ih =>
    intro done acc d hb hacc
    simp only [buildHashes] at hb
    cases hr : readF f with
    | none => rw [hr] at hb; exact absurd hb (by simp)
    | some c =>
      rw [hr] at hb
      have h1 := ih (done ++ [f]) _ _ hb (insertFile_sublist hacc (dg c) f)
      simpa [List.append_assoc] using h1

theorem map_fst_nodup_inj {α β : Type} {d : List (α × β)}
    (hnd : (d.map Prod.fst).Nodup) {g1 g2 : α × β}
    (h1 : g1 ∈ d) (h2 : g2 ∈ d) (hk : g1.1 = g2.1) : g1 = g2 := by
  induction d with
  | nil => simp at h1
  | cons hd tl ih =>
    rw [List.map_cons, List.nodup_cons] at hnd
    rcases List.mem_cons.mp h1 with rfl | h1 <;> rcases List.mem_cons.mp h2 with h2 | h2
    · exact h2.symm
    · exact absurd (hk ▸ List.mem_map_of_mem Prod.fst h2) hnd.1
    · exact absurd (hk ▸ List.mem_map_of_mem Prod.fst h1) (h2 ▸ hnd.1)
    · exact ih hnd.2 h1 h2

theorem two_le_length_of_two_mem {α : Type} {l : List α} {a b : α}
    (ha : a ∈ l) (hb : b ∈ l) (hne : a ≠ b) : 2 ≤ l.length := by
  match l with
  | [] => simp at ha
  | [x] =>
    rw [List.mem_singleton] at ha hb
    exact absurd (ha.trans hb.symm) hne
  | x :: y :: tl => simp

theorem count_allPaths_filter (pred : String × List String → Bool) (d : HDict)
    (q : String) :
    (allPaths (d.filter pred)).count q ≤ (allPaths d).count q := by
  induction d with
  | nil => simp [allPaths]
  | cons hd tl ih =>
    simp only [allPaths, List.flatMap_cons, List.count_append] at ih ⊢
    by_cases hp : pred hd
    · simp only [List.filter_cons_of_pos hp, List.flatMap_cons, List.count_append]
      omega
    · simp only [List.filter_cons_of_neg (by simpa using hp)]
      omega

theorem check_hashes_eq {readF : String → Option (List Nat)}
    {dg : List Nat → String} {files : List String} {res : HDict}
    (h : check_hashes readF dg files = some res) :
    ∃ d, buildHashes readF dg files [] = some d ∧
      res = d.filter (fun kv => 2 ≤ kv.2.length) := by
  unfold check_hashes at h
  cases hb : buildHashes readF dg files [] with
  | none => rw [hb] at h; exact absurd h (by simp)
  | some d =>
    rw [hb] at h
    injection h with h
    exact ⟨d, rfl, h.symm⟩

/-- C1: within one size bucket, two distinct input paths land in the same
digest group of `check_hashes` iff their content digests are equal.  The
digest function `dg` is arbitrary here, so the grouping demonstrably uses
digest equality only — there is no secondary byte-by-byte verification that
could separate distinct contents sharing a digest. -/
theorem check_hashes_same_group_iff_digest_eq
    (readF : String → Option (List Nat)) (dg : List Nat → String)
    (files : List String) (res : HDict) (p1 p2 : String) (c1 c2 : List Nat)
    (h : check_hashes readF dg files = some res)
    (h1 : p1 ∈ files) (h2 : p2 ∈ files) (hne : p1 ≠ p2)
    (hc1 : readF p1 = some c1) (hc2 : readF p2 = some c2) :
    (∃ g ∈ res, p1 ∈ g.2 ∧ p2 ∈ g.2) ↔ dg c1 = dg c2 := by
  obtain ⟨d, hb, hres⟩ := check_hashes_eq h
  constructor
  · rintro ⟨g, hgres, hp1, hp2⟩
    have hgd : g ∈ d := (List.mem_filter.mp (hres ▸ hgres)).1
    have hinv := buildHashes_inv readF dg files [] d hb (by simp)
    obtain ⟨ca, hca, hda⟩ := hinv g hgd p1 hp1
    obtain ⟨cb, hcb, hdb⟩ := hinv g hgd p2 hp2
    have e1 : ca = c1 := Option.some.inj (hca.symm.trans hc1)
    have e2 : cb = c2 := Option.some.inj (hcb.symm.trans hc2)
    rw [← e1, ← e2, hda, hdb]
  · intro hdg
    obtain ⟨ca, hca, g1, hg1, hk1, hm1⟩ := buildHashes_mem readF dg files [] d hb p1 h1
    obtain ⟨cb, hcb, g2, hg2, hk2, hm2⟩ := buildHashes_mem readF dg files [] d hb p2 h2
    have e1 : ca = c1 := Option.some.inj (hca.symm.trans hc1)
    have e2 : cb = c2 := Option.some.inj (hcb.symm.trans hc2)
    have hnd := buildHashes_keys_nodup readF dg files [] d hb (by simp)
    have hkeq : g1.1 = g2.1 := by rw [hk1, hk2, e1, e2, hdg]
    have hg12 : g1 = g2 := map_fst_nodup_inj hnd hg1 hg2 hkeq
    have hboth : p2 ∈ g1.2 := hg12 ▸ hm2
    have hlen : 2 ≤ g1.2.length := two_le_length_of_two_mem hm1 hboth hne
    refine ⟨g1, ?_, hm1, hboth⟩
    rw [hres]
    exact List.mem_filter.mpr ⟨hg1, by simpa using hlen⟩

theorem check_hashes_same_group_iff_digest_eq_witness :
    (∃ g ∈ [("h", ["a", "b"])], "a" ∈ g.2 ∧ "b" ∈ g.2) ↔ "h" = "h" :=
  check_hashes_same_group_iff_digest_eq
    (fun p => if p = "a" then some [1] else some [2]) (fun _ => "h")
    ["a", "b"] [("h", ["a", "b"])] "a" "b" [1] [2]
    (by decide) (by decide) (by decide) (by decide) (by decide) (by decide)

/-- C2: every size bucket retained by `get_files` has at least 2 member
paths, and every digest group retained by `check_hashes` has at least 2
member paths; no singleton survives either filter. -/
theorem no_singleton_bucket_or_group
    (stat : String → Option Nat) (entries : List Entry) (form : String)
    (m : SDict) (readF : String → Option (List Nat)) (dg : List Nat → String)
    (files : List String) (res : HDict)
    (hm : get_files stat entries form = some m)
    (hr : check_hashes readF dg files = some res) :
    (∀ b ∈ m, 2 ≤ b.2.length) ∧ (∀ g ∈ res, 2 ≤ g.2.length) := by
  constructor
  · intro b hb
    unfold get_files at hm
    cases hs : buildSizes stat form entries [] with
    | none => rw [hs] at hm; exact absurd hm (by simp)
    | some d =>
      rw [hs] at hm
      injection hm with hm
      rw [← hm] at hb
      simpa using (List.mem_filter.mp hb).2
  · intro g hg
    obtain ⟨d, _, hres⟩ := check_hashes_eq hr
    rw [hres] at hg
    simpa using (List.mem_filter.mp hg).2

theorem no_singleton_bucket_or_group_witness :
    (∀ b ∈ [((5 : Nat), ["d/a", "d/b"])], 2 ≤ b.2.length) ∧
      (∀ g ∈ [("h", ["x", "y"])], 2 ≤ g.2.length) :=
  no_singleton_bucket_or_group (fun _ => some 5) [⟨"d", "a"⟩, ⟨"d", "b"⟩] ""
    [(5, ["d/a", "d/b"])] (fun _ => some [1]) (fun _ => "h") ["x", "y"]
    [("h", ["x", "y"])] (by decide) (by decide)

/-- C5 (claimed behaviour refuted, see companion results): in the source,
the body of the hashing loop of `check_hashes` has no exception handler, so
one failing read aborts the whole call — the surviving files of the bucket
are not grouped at all.  Here the read of "b" fails while "a" and "c" are
readable duplicates: the call returns `none` (the raised `OSError`), while
running without the failing file shows what the claim expected to survive. -/
theorem check_hashes_aborts_on_read_failure :
    check_hashes (fun p => if p = "b" then none else some [1]) (fun _ => "h")
      ["a", "b", "c"] = none ∧
    check_hashes (fun p => if p = "b" then none else some [1]) (fun _ => "h")
      ["a", "c"] = some [("h", ["a", "c"])] := by decide

/-- C9: the output of `check_hashes` is a sub-partition of its input list:
every stored path occurs in the input, a path occurs in at most one digest
group, and each path occurs in the output at most as often as in the
input. -/
theorem check_hashes_subpartition
    (readF : String → Option (List Nat)) (dg : List Nat → String)
    (files : List String) (res : HDict)
    (h : check_hashes readF dg files = some res) :
    (∀ g ∈ res, ∀ p ∈ g.2, p ∈ files) ∧
    (∀ g1 ∈ res, ∀ g2 ∈ res, ∀ p, p ∈ g1.2 → p ∈ g2.2 → g1 = g2) ∧
    (∀ p, (allPaths res).count p ≤ files.count p) := by
  obtain ⟨d, hb, hres⟩ := check_hashes_eq h
  have hcount := buildHashes_count readF dg files [] d hb
  have hinv := buildHashes_inv readF dg files [] d hb (by simp)
  refine ⟨?_, ?_, ?_⟩
  · intro g hg p hp
    have hgd : g ∈ d := (List.mem_filter.mp (hres ▸ hg)).1
    have hmem : p ∈ allPaths d := List.mem_flatMap.mpr ⟨g, hgd, hp⟩
    have hpos : 0 < (allPaths d).count p := List.count_pos_iff.mpr hmem
    have hc := hcount p
    rw [show allPaths [] = [] from rfl] at hc
    simp only [List.count_nil, Nat.zero_add] at hc
    exact List.count_pos_iff.mp (hc ▸ hpos)
  · intro g1 hg1 g2 hg2 p hp1 hp2
    have hnd := buildHashes_keys_nodup readF dg files [] d hb (by simp)
    have hndres : (res.map Prod.fst).Nodup :=
      ((hres ▸ List.filter_sublist d).map Prod.fst).nodup hnd
    have hg1d : g1 ∈ d := (List.mem_filter.mp (hres ▸ hg1)).1
    have hg2d : g2 ∈ d := (List.mem_filter.mp (hres ▸ hg2)).1
    obtain ⟨ca, hca, hda⟩ := hinv g1 hg1d p hp1
    obtain ⟨cb, hcb, hdb⟩ := hinv g2 hg2d p hp2
    have e : ca = cb := Option.some.inj (hca.symm.trans hcb)
    exact map_fst_nodup_inj hndres hg1 hg2 (by rw [← hda, ← hdb, e])
  · intro p
    have h1 : (allPaths res).count p ≤ (allPaths d).count p := by
      rw [hres]; exact count_allPaths_filter _ d p
    have h2 := hcount p
    rw [show allPaths [] = [] from rfl] at h2
    simp only [List.count_nil, Nat.zero_add] at h2
    omega

theorem check_hashes_subpartition_witness :
    (∀ g ∈ [("h", ["a", "b"])], ∀ p ∈ g.2, p ∈ ["a", "b"]) ∧
    (∀ g1 ∈ [("h", ["a", "b"])], ∀ g2 ∈ [("h", ["a", "b"])],
      ∀ p, p ∈ g1.2 → p ∈ g2.2 → g1 = g2) ∧
    (∀ p, (allPaths [("h", ["a", "b"])]).count p ≤ (["a", "b"] : List String).count p) :=
  check_hashes_subpartition (fun _ => some [1]) (fun _ => "h") ["a", "b"]
    [("h", ["a", "b"])] (by decide)

/-- C6 (claimed behaviour refuted): the `os.stat` call of `get_files`
(handler.py line 34) is unguarded, so a metadata failure on one walked
entry aborts the whole scan — with a failing middle entry the call returns
`none` (the raised `OSError`) and the sibling after it is never processed,
while the same scan without the failing entry groups the two good
siblings. -/
theorem get_files_aborts_on_stat_failure :
    get_files (fun p => if p = "d/broken" then none else some 7)
      [⟨"d", "good1"⟩, ⟨"d", "broken"⟩, ⟨"d", "good2"⟩] "" = none ∧
    get_files (fun p => if p = "d/broken" then none else some 7)
      [⟨"d", "good1"⟩, ⟨"d", "good2"⟩] "" =
      some [(7, ["d/good1", "d/good2"])] := by decide

/-- C7 (claimed behaviour refuted): the `os.remove` call of `delete_files`
(handler.py line 192) is unguarded.  With selection {0, 1, 2} over three
10-byte entries where the file of index 1 is already gone from the
filesystem `["a", "c"]`, the loop removes "a" and then raises on "b": the
remaining selected file "c" is never attempted and no total is reported
(`none`); the same batch without the failing entry completes. -/
theorem delete_files_aborts_on_remove_failure :
    delete_files ["a", "c"] [(0, "a", 10), (1, "b", 10), (2, "c", 10)]
      [0, 1, 2] = none ∧
    delete_files ["a", "c"] [(0, "a", 10), (2, "c", 10)] [0, 2] =
      some ([], 20) := by decide

theorem delete_files_go_spec (numbers : List Nat) :
    ∀ (table : List (Nat × String × Nat)) (fs : List String) (mem s : Nat),
    fs.Nodup →
    (∀ e ∈ table, e.1 ∈ numbers → e.2.2 = s) →
    (∀ e ∈ table, e.1 ∈ numbers → e.2.1 ∈ fs) →
    ((table.filter (fun e => decide (e.1 ∈ numbers))).map (fun e => e.2.1)).Nodup →
    ∃ fs2, delete_files_go numbers fs mem table =
        some (fs2, mem + (table.filter (fun e => decide (e.1 ∈ numbers))).length * s) ∧
      ∀ q, q ∈ fs2 ↔ (q ∈ fs ∧
        q ∉ (table.filter (fun e => decide (e.1 ∈ numbers))).map (fun e => e.2.1)) := by
  intro table
  induction table with
  | nil =>
    intro fs mem s hfs hsize hsub hnd
    exact ⟨fs, by simp [delete_files_go], by simp⟩
  | cons hd tl ih =>
    intro fs mem s hfs hsize hsub hnd
    obtain ⟨numb, p, sz⟩ := hd
    by_cases hn : numb ∈ numbers
    · have hs : sz = s := hsize (numb, p, sz) (List.mem_cons_self _ _) hn
      have hp : p ∈ fs := hsub (numb, p, sz) (List.mem_cons_self _ _) hn
      have hfilter : ((numb, p, sz) :: tl).filter (fun e => decide (e.1 ∈ numbers))
          = (numb, p, sz) :: tl.filter (fun e => decide (e.1 ∈ numbers)) :=
        List.filter_cons_of_pos (by simpa using hn)
      rw [hfilter] at hnd
      simp only [List.map_cons, List.nodup_cons] at hnd
      have hsub2 : ∀ e ∈ tl, e.1 ∈ numbers → e.2.1 ∈ fs.erase p := by
        intro e he hne
        have hmem0 : e.2.1 ∈ (tl.filter (fun e => decide (e.1 ∈ numbers))).map
            (fun e => e.2.1) :=
          List.mem_map_of_mem _ (List.mem_filter.mpr ⟨he, by simpa using hne⟩)
        have hq : e.2.1 ≠ p := fun hqp => hnd.1 (hqp ▸ hmem0)
        exact (List.mem_erase_of_ne hq).mpr (hsub e (List.mem_cons_of_mem _ he) hne)
      obtain ⟨fs2, hgo, hmem⟩ := ih (fs.erase p) (mem + sz) s (hfs.erase p)
        (fun e he hne => hsize e (List.mem_cons_of_mem _ he) hne) hsub2 hnd.2
      refine ⟨fs2, ?_, ?_⟩
      · simp only [delete_files_go, if_pos hn, if_pos hp]
        rw [hgo, hfilter]
        simp only [Option.some.injEq, Prod.mk.injEq, List.length_cons, true_and]
        rw [hs]
        ring
      · intro q
        rw [hmem q, hfs.mem_erase_iff, hfilter, List.map_cons, List.mem_cons]
        tauto
    · have hfilter : ((numb, p, sz) :: tl).filter (fun e => decide (e.1 ∈ numbers))
          = tl.filter (fun e => decide (e.1 ∈ numbers)) :=
        List.filter_cons_of_neg (by simpa using hn)
      obtain ⟨fs2, hgo, hmem⟩ := ih fs mem s hfs
        (fun e he hne => hsize e (List.mem_cons_of_mem _ he) hne)
        (fun e he hne => hsub e (List.mem_cons_of_mem _ he) hne)
        (hfilter ▸ hnd)
      refine ⟨fs2, ?_, ?_⟩
      · simp only [delete_files_go, if_neg hn]
        rw [hgo, hfilter]
      · intro q
        rw [hmem q, hfilter]

/-- C4: on a selection whose k selected entries all carry recorded size s,
`delete_files` reports exactly k·s freed bytes, removes exactly the
selected files from the filesystem, and leaves every file of an unselected
entry (indeed any other file) untouched. -/
theorem delete_files_frees_k_times_s
    (fs : List String) (table : List (Nat × String × Nat)) (numbers : List Nat)
    (s k : Nat) (hfs : fs.Nodup)
    (hk : (table.filter (fun e => decide (e.1 ∈ numbers))).length = k)
    (hsize : ∀ e ∈ table, e.1 ∈ numbers → e.2.2 = s)
    (hsub : ∀ e ∈ table, e.1 ∈ numbers → e.2.1 ∈ fs)
    (hnd : ((table.filter (fun e => decide (e.1 ∈ numbers))).map
      (fun e => e.2.1)).Nodup) :
    ∃ fs2, delete_files fs table numbers = some (fs2, k * s) ∧
      ∀ q, q ∈ fs2 ↔ (q ∈ fs ∧
        q ∉ (table.filter (fun e => decide (e.1 ∈ numbers))).map
          (fun e => e.2.1)) := by
  obtain ⟨fs2, hgo, hmem⟩ :=
    delete_files_go_spec numbers table fs 0 s hfs hsize hsub hnd
  refine ⟨fs2, ?_, hmem⟩
  unfold delete_files
  rw [hgo, hk]
  simp

theorem delete_files_frees_k_times_s_witness :
    ∃ fs2, delete_files ["a", "b"] [(0, "a", 10), (1, "b", 10)] [0] =
        some (fs2, 1 * 10) ∧
      ∀ q, q ∈ fs2 ↔ (q ∈ ["a", "b"] ∧
        q ∉ (([(0, "a", 10), (1, "b", 10)].filter
          (fun e => decide (e.1 ∈ [0]))).map (fun e => e.2.1))) :=
  delete_files_frees_k_times_s ["a", "b"] [(0, "a", 10), (1, "b", 10)] [0] 10 1
    (by decide) (by decide) (by decide) (by decide) (by decide)

theorem delete_files_go_ignores_absent (numbers : List Nat) (i : Nat) :
    ∀ (table : List (Nat × String × Nat)) (fs : List String) (mem : Nat),
    i ∉ table.map Prod.fst →
    delete_files_go (i :: numbers) fs mem table =
      delete_files_go numbers fs mem table := by
  intro table
  induction table with
  | nil => intro fs mem _; rfl
  | cons hd tl ih =>
    intro fs mem hi
    obtain ⟨numb, p, sz⟩ := hd
    simp only [List.map_cons, List.mem_cons, not_or] at hi
    have hne : numb ≠ i := fun h => hi.1 h.symm
    by_cases hn : numb ∈ numbers
    · simp only [delete_files_go, if_pos hn,
        if_pos (List.mem_cons_of_mem i hn)]
      by_cases hp : p ∈ fs
      · simp only [if_pos hp]
        exact ih _ _ hi.2
      · simp only [if_neg hp]
    · have hn2 : numb ∉ i :: numbers := by
        simp only [List.mem_cons, not_or]
        exact ⟨hne, hn⟩
      simp only [delete_files_go, if_neg hn, if_neg hn2]
      exact ih _ _ hi.2

/-- C8: a selected index that is not a key of the AddressTable is a pure
no-op for `delete_files`: adding it to the selection raises no error,
removes no file and adds nothing to the reported total — the result is
identical to running without it. -/
theorem delete_files_ignores_absent_index
    (fs : List String) (table : List (Nat × String × Nat)) (numbers : List Nat)
    (i : Nat) (hi : i ∉ table.map Prod.fst) :
    delete_files fs table (i :: numbers) = delete_files fs table numbers :=
  delete_files_go_ignores_absent numbers i table fs 0 hi

theorem delete_files_ignores_absent_index_witness :
    delete_files ["a"] [(0, "a", 5)] [7, 0] = delete_files ["a"] [(0, "a", 5)] [0] :=
  delete_files_ignores_absent_index ["a"] [(0, "a", 5)] [0] 7 (by decide)

theorem delete_files_go_membership_ext (ns1 ns2 : List Nat)
    (h : ∀ j, j ∈ ns1 ↔ j ∈ ns2) :
    ∀ (table : List (Nat × String × Nat)) (fs : List String) (mem : Nat),
    delete_files_go ns1 fs mem table = delete_files_go ns2 fs mem table := by
  intro table
  induction table with
  | nil => intro fs mem; rfl
  | cons hd tl ih =>
    intro fs mem
    obtain ⟨numb, p, sz⟩ := hd
    by_cases hn : numb ∈ ns1
    · simp only [delete_files_go, if_pos hn, if_pos ((h numb).mp hn)]
      by_cases hp : p ∈ fs
      · simp only [if_pos hp]
        exact ih _ _
      · simp only [if_neg hp]
    · simp only [delete_files_go, if_neg hn,
        if_neg (fun h2 => hn ((h numb).mpr h2))]
      exact ih _ _

/-- C10: the selection influences `delete_files` only through membership —
the loop runs over the table keys and tests `numb in numbers` — so a
selection repeating a valid index behaves exactly like the deduplicated
selection: each table entry is processed at most once, each file removed at
most once, and its size counted exactly once. -/
theorem delete_files_selection_membership_only
    (fs : List String) (table : List (Nat × String × Nat)) (ns1 ns2 : List Nat)
    (h : ∀ j, j ∈ ns1 ↔ j ∈ ns2) :
    delete_files fs table ns1 = delete_files fs table ns2 :=
  delete_files_go_membership_ext ns1 ns2 h table fs 0

theorem delete_files_selection_membership_only_witness :
    delete_files ["a", "b"] [(0, "a", 5), (1, "b", 5)] [0, 0] =
      delete_files ["a", "b"] [(0, "a", 5), (1, "b", 5)] [0] :=
  delete_files_selection_membership_only ["a", "b"]
    [(0, "a", 5), (1, "b", 5)] [0, 0] [0] (fun j => by simp)

theorem number_group_eq (size : Nat) :
    ∀ (ps : List String) (count : Nat),
    number_group size count ps =
      (List.enumFrom count (ps.map (fun p => (p, size))), count + ps.length) := by
  intro ps
  induction ps with
  | nil => intro count; simp [number_group]
  | cons p ps ih =>
    intro count
    simp only [number_group, ih (count + 1), List.map_cons, List.enumFrom_cons,
      List.length_cons, Prod.mk.injEq]
    exact ⟨trivial, by omega⟩

theorem number_groups_eq (size : Nat) :
    ∀ (gs : HDict) (count : Nat),
    number_groups size count gs =
      (List.enumFrom count (gs.flatMap (fun g => g.2.map (fun p => (p, size)))),
       count + (gs.flatMap (fun g => g.2.map (fun p => (p, size)))).length) := by
  intro gs
  induction gs with
  | nil => intro count; simp [number_groups]
  | cons g gs ih =>
    intro count
    simp only [number_groups, number_group_eq, ih, List.flatMap_cons,
      List.enumFrom_append, List.length_append, List.length_map, Prod.mk.injEq]
    exact ⟨trivial, by omega⟩

theorem number_sizes_eq :
    ∀ (d : List (Nat × HDict)) (count : Nat),
    number_sizes count d =
      (List.enumFrom count (specTraversalOrder d),
       count + (specTraversalOrder d).length) := by
  intro d
  induction d with
  | nil => intro count; simp [number_sizes, specTraversalOrder]
  | cons e es ih =>
    intro count
    simp only [number_sizes, number_groups_eq, ih, specTraversalOrder,
      List.flatMap_cons, List.enumFrom_append, List.length_append,
      Prod.mk.injEq]
    exact ⟨trivial, by omega⟩

theorem buildDuplicates_keys_sublist (readF : String → Option (List Nat))
    (dg : List Nat → String) (lst : SDict) :
    ∀ (ks : List Nat) (d : List (Nat × HDict)),
    buildDuplicates readF dg lst ks = some d →
    (d.map Prod.fst).Sublist ks := by
  intro ks
  induction ks with
  | nil =>
    intro d h
    simp only [buildDuplicates, Option.some.injEq] at h
    simp [← h]
  | cons s rest ih =>
    intro d h
    simp only [buildDuplicates] at h
    cases hc : check_hashes readF dg (dict_get lst s) with
    | none => rw [hc] at h; exact absurd h (by simp)
    | some hd2 =>
      rw [hc] at h
      cases hb : buildDuplicates readF dg lst rest with
      | none => rw [hb] at h; exact absurd h (by simp)
      | some acc =>
        rw [hb] at h
        injection h with h
        by_cases he : hd2.isEmpty
        · rw [if_pos he] at h
          exact (h ▸ ih acc hb).cons s
        · rw [if_neg he] at h
          rw [← h, List.map_cons]
          exact (ih acc hb).cons₂ s

theorem buildDuplicates_entries (readF : String → Option (List Nat))
    (dg : List Nat → String) (lst : SDict) :
    ∀ (ks : List Nat) (d : List (Nat × HDict)),
    buildDuplicates readF dg lst ks = some d →
    ∀ e ∈ d, check_hashes readF dg (dict_get lst e.1) = some e.2 := by
  intro ks
  induction ks with
  | nil =>
    intro d h e he
    simp only [buildDuplicates, Option.some.injEq] at h
    rw [← h] at he
    simp at he
  | cons s rest ih =>
    intro d h e he
    simp only [buildDuplicates] at h
    cases hc : check_hashes readF dg (dict_get lst s) with
    | none => rw [hc] at h; exact absurd h (by simp)
    | some hd2 =>
      rw [hc] at h
      cases hb : buildDuplicates readF dg lst rest with
      | none => rw [hb] at h; exact absurd h (by simp)
      | some acc =>
        rw [hb] at h
        injection h with h
        by_cases hemp : hd2.isEmpty
        · rw [if_pos hemp] at h
          exact ih acc hb e (h ▸ he)
        · rw [if_neg hemp] at h
          rw [← h] at he
          rcases List.mem_cons.mp he with rfl | he1
          · exact hc
          · exact ih acc hb e he1

theorem check_hashes_group_sublist {readF : String → Option (List Nat)}
    {dg : List Nat → String} {files : List String} {res : HDict}
    (h : check_hashes readF dg files = some res) :
    ∀ g ∈ res, g.2.Sublist files := by
  obtain ⟨d, hb, hres⟩ := check_hashes_eq h
  intro g hg
  have hgd : g ∈ d := (List.mem_filter.mp (hres ▸ hg)).1
  have hs := buildHashes_sublist readF dg files [] [] d hb (by simp)
  simpa using hs g hgd

theorem sorted_keys_sorted (keys : List Nat) (srt : Bool) (hnd : keys.Nodup) :
    if srt then (sorted_keys keys srt).Sorted (· > ·)
    else (sorted_keys keys srt).Sorted (· < ·) := by
  cases srt with
  | false =>
    simp only [if_neg, sorted_keys, Bool.false_eq_true, if_false]
    have h1 : (List.insertionSort (· ≤ ·) keys).Sorted (· ≤ ·) :=
      List.sorted_insertionSort _ _
    have h2 : (List.insertionSort (· ≤ ·) keys).Nodup :=
      (List.perm_insertionSort (· ≤ ·) keys).symm.nodup hnd
    exact (List.Pairwise.and h1 h2).imp (fun h => lt_of_le_of_ne h.1 h.2)
  | true =>
    simp only [sorted_keys, if_true]
    have h1 : (List.insertionSort (· ≥ ·) keys).Sorted (· ≥ ·) :=
      List.sorted_insertionSort _ _
    have h2 : (List.insertionSort (· ≥ ·) keys).Nodup :=
      (List.perm_insertionSort (· ≥ ·) keys).symm.nodup hnd
    exact (List.Pairwise.and h1 h2).imp
      (fun h => lt_of_le_of_ne h.1 (Ne.symm h.2))

/-- C3: the AddressTable of `get_duplicates_paths` carries dense indices
0, 1, 2, ... assigned in exactly the canonical traversal order: size
entries strictly descending (`srt = true`) or strictly ascending
(`srt = false`), digest groups of one size in dictionary insertion order
and paths of one group in discovery order (each group list is a
subsequence of the bucket's path list); the table equals the enumeration
of that canonical sequence, and as a pure function of the scanned
structure and the direction it is deterministic. -/
theorem address_table_canonical
    (lst : SDict) (srt : Bool) (readF : String → Option (List Nat))
    (dg : List Nat → String) (d : List (Nat × HDict))
    (hnd : (lst.map Prod.fst).Nodup)
    (h : get_duplicates lst srt readF dg = some d) :
    (if srt then (d.map Prod.fst).Sorted (· > ·)
     else (d.map Prod.fst).Sorted (· < ·)) ∧
    get_duplicates_paths d = List.enum (specTraversalOrder d) ∧
    (∀ e ∈ d, ∀ g ∈ e.2, g.2.Sublist (dict_get lst e.1)) := by
  unfold get_duplicates at h
  have hsub := buildDuplicates_keys_sublist readF dg lst _ d h
  have hsorted := sorted_keys_sorted (lst.map Prod.fst) srt hnd
  refine ⟨?_, ?_, ?_⟩
  · cases srt with
    | false =>
      simp only [Bool.false_eq_true, if_false] at hsorted ⊢
      exact List.Pairwise.sublist hsub hsorted
    | true =>
      simp only [if_true] at hsorted ⊢
      exact List.Pairwise.sublist hsub hsorted
  · unfold get_duplicates_paths
    rw [number_sizes_eq]
    rfl
  · intro e he g hg
    exact check_hashes_group_sublist
      (buildDuplicates_entries readF dg lst _ d h e he) g hg

theorem address_table_canonical_witness :
    (if true then
      (([((5 : Nat), [("h", ["a", "b"])]),
        (3, [("h", ["c", "d"])])].map Prod.fst)).Sorted (· > ·)
     else
      (([((5 : Nat), [("h", ["a", "b"])]),
        (3, [("h", ["c", "d"])])].map Prod.fst)).Sorted (· < ·)) ∧
    get_duplicates_paths
        [((5 : Nat), [("h", ["a", "b"])]), (3, [("h", ["c", "d"])])] =
      List.enum (specTraversalOrder
        [((5 : Nat), [("h", ["a", "b"])]), (3, [("h", ["c", "d"])])]) ∧
    (∀ e ∈ [((5 : Nat), [("h", ["a", "b"])]), (3, [("h", ["c", "d"])])],
      ∀ g ∈ e.2, g.2.Sublist (dict_get [(5, ["a", "b"]), (3, ["c", "d"])] e.1)) :=
  address_table_canonical [(5, ["a", "b"]), (3, ["c", "d"])] true
    (fun _ => some [0]) (fun _ => "h")
    [(5, [("h", ["a", "b"])]), (3, [("h", ["c", "d"])])]
    (by decide) (by decide)

example : check_hashes (fun _ => some [1]) (fun _ => "h") ["a", "b"] =
    some [("h", ["a", "b"])] := by decide
example : check_hashes (fun _ => some [1]) (fun c => if c = [1] then "h" else "g")
    ["a"] = some [] := by decide
example : str_endswith "abc" "" = true := by decide
example : str_endswith "abc" "bc" = true := by decide
example : str_endswith "abc" "d" = false := by decide
example : get_files (fun _ => some 5) [⟨"d", "a"⟩, ⟨"d", "b"⟩] "" =
    some [(5, ["d/a", "d/b"])] := by decide
example : delete_files ["a", "b"] [(0, "a", 10), (1, "b", 10)] [0] =
    some (["b"], 10) := by decide
example : get_duplicates [(5, ["a", "b"]), (3, ["c", "d"])] true
    (fun _ => some [0]) (fun _ => "h") =
    some [(5, [("h", ["a", "b"])]), (3, [("h", ["c", "d"])])] := by decide
example : get_duplicates_paths [(5, [("h", ["a", "b"])]), (3, [("h", ["c"])])] =
    [(0, "a", 5), (1, "b", 5), (2, "c", 3)] := by decide
